import Mathlib

/-!
# Verification of the lexorank position algorithm

Shallow embedding of `src/lib.rs` (crate `lexorank-rust`).

A position string is modelled as a `List Nat` of its bytes.  The algorithm's
alphabet is printable ASCII (code points 32..126), where bytes and characters
coincide, so this is a faithful model of the Rust `&str` operations used by
the code (`as_bytes`, byte indexing, byte-range slicing, `str::cmp`).

Machine-integer arithmetic (`u8`) is modelled over `Nat` with an explicit
`% 2 ^ 8` at the two places where wrap-around could occur (`avg`'s addition
and the `upper - lower` subtraction inside `position_between`); the safety
theorem shows the wrap never fires under the documented preconditions.
-/

namespace LexoRankRust

namespace FigmaStrategy

/-- `FigmaStrategy::START_CHAR_CODE`: lower alphabet bound (space). -/
def START_CHAR_CODE : Nat := 32

/-- `FigmaStrategy::END_CHAR_CODE`: upper alphabet bound (`~`). -/
def END_CHAR_CODE : Nat := 126

/-- Wrapping `u8` subtraction `a - b` (release semantics, modulo `2 ^ 8`). -/
def wsub (a b : Nat) : Nat := (a + 2 ^ 8 - b) % 2 ^ 8

/-- `FigmaStrategy::avg`: `(a + b) / 2` on `u8`; the addition wraps
modulo `2 ^ 8`. -/
def avg (a b : Nat) : Nat := ((a + b) % 2 ^ 8) / 2

/-- `FigmaStrategy::compare_positions`: `first_pos.cmp(second_pos)`, i.e.
byte-wise lexicographic comparison of the two strings. -/
def compare_positions : List Nat → List Nat → Ordering
  | [], [] => .eq
  | [], _ :: _ => .lt
  | _ :: _, [] => .gt
  | x :: xs, y :: ys =>
    if x < y then .lt else if y < x then .gt else compare_positions xs ys

/-- `FigmaStrategy::is_valid_position`: false on the empty string, false when
the last byte is `START_CHAR_CODE`, false when any byte is outside
`[START_CHAR_CODE, END_CHAR_CODE]`; true otherwise.  The empty check
short-circuits before the last-byte access, as in the source. -/
def is_valid_position (pos : List Nat) : Bool :=
  if pos.isEmpty || pos.getLastD 0 == START_CHAR_CODE then false
  else pos.all fun c => !(c < START_CHAR_CODE) && !(END_CHAR_CODE < c)

/-- The reverse scan of `FigmaStrategy::position_before`: walking the byte
list from the end (here: the reversed list from the front), find the first
byte strictly greater than `START_CHAR_CODE + 1`, replace it by its
predecessor and drop everything scanned past (the bytes after it in the
original string). Returns the reversed tail of the result, or `none` when
no such byte exists. -/
def scanBefore : List Nat → Option (List Nat)
  | [] => none
  | c :: rest =>
    if START_CHAR_CODE + 1 < c then some ((c - 1) :: rest) else scanBefore rest

/-- `FigmaStrategy::position_before`: decrement the rightmost byte strictly
above `START_CHAR_CODE + 1` and truncate there; if there is none, drop the
last byte and append `START_CHAR_CODE` then `END_CHAR_CODE`. -/
def position_before (pos : List Nat) : List Nat :=
  match scanBefore pos.reverse with
  | some r => r.reverse
  | none => pos.dropLast ++ [START_CHAR_CODE, END_CHAR_CODE]

/-- The reverse scan of `FigmaStrategy::position_after`: find the rightmost
byte strictly below `END_CHAR_CODE`, replace it by its successor and drop
the bytes after it.  Input and output are reversed, as in `scanBefore`. -/
def scanAfter : List Nat → Option (List Nat)
  | [] => none
  | c :: rest =>
    if c < END_CHAR_CODE then some ((c + 1) :: rest) else scanAfter rest

/-- `FigmaStrategy::position_after`: increment the rightmost byte strictly
below `END_CHAR_CODE` and truncate there; when every byte is `END_CHAR_CODE`,
append `START_CHAR_CODE + 1`. -/
def position_after (pos : List Nat) : List Nat :=
  match scanAfter pos.reverse with
  | some r => r.reverse
  | none => pos ++ [START_CHAR_CODE + 1]

/-- The loop of `FigmaStrategy::position_between`.  The fuel argument is the
number of remaining iterations (`max_len - i` in the source); `as`/`bs` are
the unread suffixes `first_pos[i..]` / `second_pos[i..]`.  `lower` is the
current byte of `first_pos`, or `START_CHAR_CODE` once it is exhausted;
`upper` is the current byte of `second_pos` unless the open-ended flag is set
or `second_pos` is exhausted, in which case it is `END_CHAR_CODE`.  Equal
bytes are copied; a gap of more than one emits the midpoint and breaks with
the flag cleared; adjacent bytes copy `lower` and set the flag.  Returns the
accumulated output and the final flag. -/
def betweenLoop : Nat → List Nat → List Nat → Bool → List Nat × Bool
  | 0, _, _, flag => ([], flag)
  | n + 1, as, bs, flag =>
    let lower := as.headD START_CHAR_CODE
    let upper := if flag then END_CHAR_CODE else bs.headD END_CHAR_CODE
    if lower = upper then
      let r := betweenLoop n as.tail bs.tail flag
      (lower :: r.1, r.2)
    else if 1 < wsub upper lower then
      ([avg lower upper], false)
    else
      let r := betweenLoop n as.tail bs.tail true
      (lower :: r.1, r.2)

/-- `FigmaStrategy::position_between`: run the loop over
`max (first_pos.len()) (second_pos.len())` byte positions, then append the
alphabet midpoint `avg START_CHAR_CODE END_CHAR_CODE` when the open-ended
flag survived the loop. -/
def position_between (first_pos second_pos : List Nat) : List Nat :=
  let r := betweenLoop (max first_pos.length second_pos.length)
      first_pos second_pos false
  if r.2 then r.1 ++ [avg START_CHAR_CODE END_CHAR_CODE] else r.1

/-- The loop of `position_between`, instrumented to report whether the `u8`
subtraction `upper - lower` ever underflows: it returns `false` as soon as
some evaluated index has `lower > upper`, and `true` when the loop runs (or
breaks) without that happening. -/
def betweenSafe : Nat → List Nat → List Nat → Bool → Bool
  | 0, _, _, _ => true
  | n + 1, as, bs, flag =>
    let lower := as.headD START_CHAR_CODE
    let upper := if flag then END_CHAR_CODE else bs.headD END_CHAR_CODE
    if lower ≤ upper then
      if lower = upper then betweenSafe n as.tail bs.tail flag
      else if 1 < wsub upper lower then true
      else betweenSafe n as.tail bs.tail true
    else false

/-- The result when appending the midpoint on a surviving open-ended flag. -/
def post (r : List Nat × Bool) : List Nat :=
  r.1 ++ if r.2 then [avg START_CHAR_CODE END_CHAR_CODE] else []

end FigmaStrategy

/-- `LexoRankKind`: the closed strategy enumeration (one variant). -/
inductive LexoRankKind
  | FIGMA
deriving DecidableEq

/-- `impl Default for LexoRankKind`. -/
def LexoRankKind.default : LexoRankKind := .FIGMA

/-- The `LexoRankStrategy` trait object: a record of the five operations. -/
structure LexoRankStrategy where
  compare_positions : List Nat → List Nat → Ordering
  is_valid_position : List Nat → Bool
  position_before : List Nat → List Nat
  position_after : List Nat → List Nat
  position_between : List Nat → List Nat → List Nat

/-- `FigmaStrategy` packaged as a `LexoRankStrategy` trait object. -/
def figmaStrategy : LexoRankStrategy where
  compare_positions := FigmaStrategy.compare_positions
  is_valid_position := FigmaStrategy.is_valid_position
  position_before := FigmaStrategy.position_before
  position_after := FigmaStrategy.position_after
  position_between := FigmaStrategy.position_between

/-- `LexoRank`: the facade, holding a strategy chosen at construction. -/
structure LexoRank where
  lexorank_strategy : LexoRankStrategy
  kind : LexoRankKind

/-- `LexoRank::new`: construct the implementation for the given kind. -/
def LexoRank.new (kind : LexoRankKind) : LexoRank :=
  match kind with
  | .FIGMA => { kind := kind, lexorank_strategy := figmaStrategy }

/-- Facade forwarding of `compare_positions`. -/
def LexoRank.compare_positions (l : LexoRank) (first_pos second_pos : List Nat) :
    Ordering :=
  l.lexorank_strategy.compare_positions first_pos second_pos

/-- Facade forwarding of `is_valid_position`. -/
def LexoRank.is_valid_position (l : LexoRank) (pos : List Nat) : Bool :=
  l.lexorank_strategy.is_valid_position pos

/-- Facade forwarding of `position_before`. -/
def LexoRank.position_before (l : LexoRank) (pos : List Nat) : List Nat :=
  l.lexorank_strategy.position_before pos

/-- Facade forwarding of `position_after`. -/
def LexoRank.position_after (l : LexoRank) (pos : List Nat) : List Nat :=
  l.lexorank_strategy.position_after pos

/-- Facade forwarding of `position_between`. -/
def LexoRank.position_between (l : LexoRank) (first_pos second_pos : List Nat) :
    List Nat :=
  l.lexorank_strategy.position_between first_pos second_pos

end LexoRankRust

namespace LexoRankRust
namespace FigmaStrategy

theorem cp_cons_self (x : Nat) (xs ys : List Nat) :
    compare_positions (x :: xs) (x :: ys) = compare_positions xs ys := by
  simp [compare_positions]

theorem cp_cons_lt {x y : Nat} (h : x < y) (xs ys : List Nat) :
    compare_positions (x :: xs) (y :: ys) = .lt := by
  simp [compare_positions, h]

theorem cp_nil_lt {l : List Nat} (h : l ≠ []) :
    compare_positions [] l = .lt := by
  cases l with
  | nil => exact absurd rfl h
  | cons y ys => simp [compare_positions]

theorem cp_eq_iff (a : List Nat) : ∀ b, compare_positions a b = .eq ↔ a = b := by
  induction a with
  | nil => intro b; cases b <;> simp [compare_positions]
  | cons x xs ih =>
    intro b
    cases b with
    | nil => simp [compare_positions]
    | cons y ys =>
      rcases Nat.lt_trichotomy x y with h | h | h
      · simp only [compare_positions, if_pos h]
        constructor
        · intro hc; cases hc
        · intro hc
          rw [List.cons.injEq] at hc
          omega
      · subst h
        rw [cp_cons_self, ih ys]
        simp
      · simp only [compare_positions, if_neg (Nat.lt_asymm h), if_pos h]
        constructor
        · intro hc; cases hc
        · intro hc
          rw [List.cons.injEq] at hc
          omega

theorem cp_lt_iff_gt (a : List Nat) :
    ∀ b, compare_positions a b = .lt ↔ compare_positions b a = .gt := by
  induction a with
  | nil =>
    intro b; cases b <;> simp [compare_positions]
  | cons x xs ih =>
    intro b
    cases b with
    | nil => simp [compare_positions]
    | cons y ys =>
      rcases Nat.lt_trichotomy x y with h | h | h
      · simp [compare_positions, h, Nat.lt_asymm h]
      · subst h
        rw [cp_cons_self, cp_cons_self, ih ys]
      · simp [compare_positions, h, Nat.lt_asymm h]

theorem cp_cons_iff {x y : Nat} {xs ys : List Nat} :
    compare_positions (x :: xs) (y :: ys) = .lt ↔
      x < y ∨ (x = y ∧ compare_positions xs ys = .lt) := by
  rcases Nat.lt_trichotomy x y with h | h | h
  · simp [cp_cons_lt h, h]
  · subst h
    simp [cp_cons_self]
  · simp only [compare_positions, if_neg (Nat.lt_asymm h), if_pos h]
    constructor
    · intro hc; cases hc
    · intro hc; omega

theorem cp_trans : ∀ a b c : List Nat, compare_positions a b = .lt →
    compare_positions b c = .lt → compare_positions a c = .lt := by
  intro a
  induction a with
  | nil =>
    intro b c hab hbc
    cases c with
    | nil =>
      cases b with
      | nil => simp [compare_positions] at hab
      | cons y ys => simp [compare_positions] at hbc
    | cons z zs => simp [compare_positions]
  | cons x xs ih =>
    intro b c hab hbc
    cases b with
    | nil => simp [compare_positions] at hab
    | cons y ys =>
      cases c with
      | nil => simp [compare_positions] at hbc
      | cons z zs =>
        rw [cp_cons_iff] at hab hbc ⊢
        rcases hab with h1 | ⟨h1, h1'⟩ <;> rcases hbc with h2 | ⟨h2, h2'⟩
        · exact Or.inl (Nat.lt_trans h1 h2)
        · exact Or.inl (h2 ▸ h1)
        · exact Or.inl (h1 ▸ h2)
        · exact Or.inr ⟨h1.trans h2, ih ys zs h1' h2'⟩

theorem cp_lex_iff (a : List Nat) :
    ∀ b, compare_positions a b = .lt ↔ List.Lex (· < ·) a b := by
  induction a with
  | nil =>
    intro b
    cases b with
    | nil => simp [compare_positions]
    | cons y ys =>
      simp only [compare_positions]
      exact ⟨fun _ => List.Lex.nil, fun _ => trivial⟩
  | cons x xs ih =>
    intro b
    cases b with
    | nil =>
      simp only [compare_positions]
      constructor
      · intro hc; cases hc
      · intro hc; cases hc
    | cons y ys =>
      rw [cp_cons_iff]
      constructor
      · rintro (h | ⟨rfl, h⟩)
        · exact List.Lex.rel h
        · exact List.Lex.cons ((ih ys).mp h)
      · intro hc
        cases hc with
        | rel h => exact Or.inl h
        | cons h => exact Or.inr ⟨rfl, (ih ys).mpr h⟩

theorem cp_append (s : List Nat) (xs ys : List Nat) :
    compare_positions (s ++ xs) (s ++ ys) = compare_positions xs ys := by
  induction s with
  | nil => rfl
  | cons c cs ih => simpa [cp_cons_self] using ih

theorem cp_prefix_lt (l : List Nat) {t : List Nat} (h : t ≠ []) :
    compare_positions l (l ++ t) = .lt := by
  have := cp_append l [] t
  simpa [cp_nil_lt h] using this

end FigmaStrategy
end LexoRankRust

namespace LexoRankRust
namespace FigmaStrategy

theorem valid_iff (p : List Nat) :
    is_valid_position p = true ↔
      p ≠ [] ∧ p.getLastD 0 ≠ START_CHAR_CODE ∧
        ∀ c ∈ p, START_CHAR_CODE ≤ c ∧ c ≤ END_CHAR_CODE := by
  by_cases h : p.isEmpty || p.getLastD 0 == START_CHAR_CODE
  · rw [is_valid_position, if_pos h]
    simp only [Bool.or_eq_true, List.isEmpty_iff, beq_iff_eq] at h
    constructor
    · intro hc; simp at hc
    · rintro ⟨h1, h2, _⟩
      rcases h with h | h
      · exact absurd h h1
      · exact absurd h h2
  · rw [is_valid_position, if_neg h]
    simp only [Bool.or_eq_true, List.isEmpty_iff, beq_iff_eq, not_or] at h
    obtain ⟨h1, h2⟩ := h
    simp only [List.all_eq_true, Bool.and_eq_true, Bool.not_eq_true',
      decide_eq_false_iff_not, Nat.not_lt]
    constructor
    · intro h3; exact ⟨h1, h2, h3⟩
    · rintro ⟨_, _, h3⟩; exact h3

theorem getLastD_of_ne_nil {r : List Nat} (h : r ≠ []) (a b : Nat) :
    r.getLastD a = r.getLastD b := by
  rw [List.getLastD_eq_getLast?, List.getLastD_eq_getLast?,
    List.getLast?_eq_getLast r h]
  rfl

theorem dropLast_append_getLastD {p : List Nat} (h : p ≠ []) :
    p.dropLast ++ [p.getLastD 0] = p := by
  conv_rhs => rw [← List.dropLast_append_getLast h]
  rw [List.getLastD_eq_getLast?, List.getLast?_eq_getLast p h]
  rfl

theorem getLastD_mem {p : List Nat} (h : p ≠ []) (a : Nat) :
    p.getLastD a ∈ p := by
  rw [List.getLastD_eq_getLast?, List.getLast?_eq_getLast p h]
  exact List.getLast_mem h

theorem valid_cons {x : Nat} {r : List Nat} (h : is_valid_position r = true)
    (hx1 : START_CHAR_CODE ≤ x) (hx2 : x ≤ END_CHAR_CODE) :
    is_valid_position (x :: r) = true := by
  rw [valid_iff] at h ⊢
  obtain ⟨h1, h2, h3⟩ := h
  refine ⟨by simp, ?_, ?_⟩
  · rw [List.getLastD_cons, getLastD_of_ne_nil h1 x 0]
    exact h2
  · intro c hc
    rcases List.mem_cons.mp hc with rfl | hc
    · exact ⟨hx1, hx2⟩
    · exact h3 c hc

theorem valid_concat {l : List Nat} {c : Nat}
    (hm : ∀ x ∈ l, START_CHAR_CODE ≤ x ∧ x ≤ END_CHAR_CODE)
    (hc1 : START_CHAR_CODE ≤ c) (hc2 : c ≤ END_CHAR_CODE)
    (hc3 : c ≠ START_CHAR_CODE) :
    is_valid_position (l ++ [c]) = true := by
  rw [valid_iff]
  refine ⟨by simp, ?_, ?_⟩
  · rw [List.getLastD_concat]
    exact hc3
  · intro x hx
    rcases List.mem_append.mp hx with hx | hx
    · exact hm x hx
    · rcases List.mem_singleton.mp hx with rfl
      exact ⟨hc1, hc2⟩

theorem valid_singleton {c : Nat} (hc1 : START_CHAR_CODE ≤ c)
    (hc2 : c ≤ END_CHAR_CODE) (hc3 : c ≠ START_CHAR_CODE) :
    is_valid_position [c] = true := by
  simpa using valid_concat (l := []) (by simp) hc1 hc2 hc3

end FigmaStrategy
end LexoRankRust

namespace LexoRankRust
namespace FigmaStrategy

theorem scanBefore_cons (c : Nat) (rest : List Nat) :
    scanBefore (c :: rest) =
      if START_CHAR_CODE + 1 < c then some ((c - 1) :: rest)
      else scanBefore rest := rfl

theorem scanBefore_append {s : List Nat}
    (h : ∀ x ∈ s, ¬ START_CHAR_CODE + 1 < x) (t : List Nat) :
    scanBefore (s ++ t) = scanBefore t := by
  induction s with
  | nil => rfl
  | cons c cs ih =>
    rw [List.cons_append, scanBefore_cons, if_neg (h c (by simp))]
    exact ih fun x hx => h x (by simp [hx])

theorem scanBefore_eq_none {l : List Nat} (h : scanBefore l = none) :
    ∀ x ∈ l, ¬ START_CHAR_CODE + 1 < x := by
  induction l with
  | nil => simp
  | cons c cs ih =>
    rw [scanBefore_cons] at h
    by_cases hc : START_CHAR_CODE + 1 < c
    · rw [if_pos hc] at h; cases h
    · rw [if_neg hc] at h
      intro x hx
      rcases List.mem_cons.mp hx with rfl | hx
      · exact hc
      · exact ih h x hx

theorem scanBefore_eq_some {l r : List Nat} (h : scanBefore l = some r) :
    ∃ s c t, l = s ++ c :: t ∧ (∀ x ∈ s, ¬ START_CHAR_CODE + 1 < x) ∧
      START_CHAR_CODE + 1 < c ∧ r = (c - 1) :: t := by
  induction l generalizing r with
  | nil => cases h
  | cons c cs ih =>
    rw [scanBefore_cons] at h
    by_cases hc : START_CHAR_CODE + 1 < c
    · rw [if_pos hc] at h
      exact ⟨[], c, cs, by simp, by simp, hc, (Option.some.injEq _ _ ▸ h).symm⟩
    · rw [if_neg hc] at h
      obtain ⟨s, c', t, rfl, hs, hc', hr⟩ := ih h
      refine ⟨c :: s, c', t, by simp, ?_, hc', hr⟩
      intro x hx
      rcases List.mem_cons.mp hx with rfl | hx
      · exact hc
      · exact hs x hx

theorem scanAfter_cons (c : Nat) (rest : List Nat) :
    scanAfter (c :: rest) =
      if c < END_CHAR_CODE then some ((c + 1) :: rest)
      else scanAfter rest := rfl

theorem scanAfter_eq_none {l : List Nat} (h : scanAfter l = none) :
    ∀ x ∈ l, ¬ x < END_CHAR_CODE := by
  induction l with
  | nil => simp
  | cons c cs ih =>
    rw [scanAfter_cons] at h
    by_cases hc : c < END_CHAR_CODE
    · rw [if_pos hc] at h; cases h
    · rw [if_neg hc] at h
      intro x hx
      rcases List.mem_cons.mp hx with rfl | hx
      · exact hc
      · exact ih h x hx

theorem scanAfter_eq_some {l r : List Nat} (h : scanAfter l = some r) :
    ∃ s c t, l = s ++ c :: t ∧ (∀ x ∈ s, ¬ x < END_CHAR_CODE) ∧
      c < END_CHAR_CODE ∧ r = (c + 1) :: t := by
  induction l generalizing r with
  | nil => cases h
  | cons c cs ih =>
    rw [scanAfter_cons] at h
    by_cases hc : c < END_CHAR_CODE
    · rw [if_pos hc] at h
      exact ⟨[], c, cs, by simp, by simp, hc, (Option.some.injEq _ _ ▸ h).symm⟩
    · rw [if_neg hc] at h
      obtain ⟨s, c', t, rfl, hs, hc', hr⟩ := ih h
      refine ⟨c :: s, c', t, by simp, ?_, hc', hr⟩
      intro x hx
      rcases List.mem_cons.mp hx with rfl | hx
      · exact hc
      · exact hs x hx

/-- Shape of `position_before` when the scan finds a byte above
`START_CHAR_CODE + 1`: `p` splits as `u ++ c :: v` with the tail `v` all at
most `START_CHAR_CODE + 1`, and the result is `u ++ [c - 1]`. -/
theorem position_before_shape {p : List Nat} {r : List Nat}
    (h : scanBefore p.reverse = some r) :
    ∃ u c v, p = u ++ c :: v ∧ (∀ x ∈ v, ¬ START_CHAR_CODE + 1 < x) ∧
      START_CHAR_CODE + 1 < c ∧ position_before p = u ++ [c - 1] := by
  obtain ⟨s, c, t, hsplit, hs, hc, hr⟩ := scanBefore_eq_some h
  refine ⟨t.reverse, c, s.reverse, ?_, ?_, hc, ?_⟩
  · have := congrArg List.reverse hsplit
    simpa [List.reverse_append] using this
  · intro x hx
    exact hs x (List.mem_reverse.mp hx)
  · rw [position_before, h, hr]
    simp

theorem position_before_growth {p : List Nat}
    (h : scanBefore p.reverse = none) :
    position_before p = p.dropLast ++ [START_CHAR_CODE, END_CHAR_CODE] := by
  rw [position_before, h]

end FigmaStrategy
end LexoRankRust

namespace LexoRankRust
namespace FigmaStrategy

/-- Shape of `position_after` when the scan finds a byte below
`END_CHAR_CODE`. -/
theorem position_after_shape {p : List Nat} {r : List Nat}
    (h : scanAfter p.reverse = some r) :
    ∃ u c v, p = u ++ c :: v ∧ (∀ x ∈ v, ¬ x < END_CHAR_CODE) ∧
      c < END_CHAR_CODE ∧ position_after p = u ++ [c + 1] := by
  obtain ⟨s, c, t, hsplit, hs, hc, hr⟩ := scanAfter_eq_some h
  refine ⟨t.reverse, c, s.reverse, ?_, ?_, hc, ?_⟩
  · have := congrArg List.reverse hsplit
    simpa [List.reverse_append] using this
  · intro x hx
    exact hs x (List.mem_reverse.mp hx)
  · rw [position_after, h, hr]
    simp

theorem position_after_growth {p : List Nat}
    (h : scanAfter p.reverse = none) :
    position_after p = p ++ [START_CHAR_CODE + 1] := by
  rw [position_after, h]

theorem position_before_lt {p : List Nat} (h : is_valid_position p = true) :
    compare_positions (position_before p) p = .lt := by
  obtain ⟨hne, hlast, hmem⟩ := (valid_iff p).mp h
  cases hscan : scanBefore p.reverse with
  | some r =>
    obtain ⟨u, c, v, hp, hv, hc, hres⟩ := position_before_shape hscan
    rw [hres, hp, cp_append]
    exact cp_cons_lt (by simp only [START_CHAR_CODE] at hc; omega) [] v
  | none =>
    have hall := scanBefore_eq_none hscan
    rw [position_before_growth hscan]
    have hg : p.getLastD 0 = START_CHAR_CODE + 1 := by
      have h1 := hmem _ (getLastD_mem hne 0)
      have h2 := hall _ (List.mem_reverse.mpr (getLastD_mem hne 0))
      simp only [START_CHAR_CODE] at *
      omega
    have hcmp : compare_positions
        (p.dropLast ++ [START_CHAR_CODE, END_CHAR_CODE])
        (p.dropLast ++ [p.getLastD 0]) = .lt := by
      rw [cp_append, hg]
      exact cp_cons_lt (by omega) [END_CHAR_CODE] []
    rwa [dropLast_append_getLastD hne] at hcmp

theorem position_before_valid {p : List Nat} (h : is_valid_position p = true) :
    is_valid_position (position_before p) = true := by
  obtain ⟨hne, hlast, hmem⟩ := (valid_iff p).mp h
  cases hscan : scanBefore p.reverse with
  | some r =>
    obtain ⟨u, c, v, hp, hv, hc, hres⟩ := position_before_shape hscan
    rw [hres]
    have hc2 := hmem c (by rw [hp]; simp)
    simp only [START_CHAR_CODE, END_CHAR_CODE] at hc hc2 ⊢
    apply valid_concat
    · intro x hx
      exact hmem x (by rw [hp]; simp [hx])
    · simp only [START_CHAR_CODE]; omega
    · simp only [END_CHAR_CODE]; omega
    · simp only [START_CHAR_CODE]; omega
  | none =>
    rw [position_before_growth hscan]
    have hsplit : p.dropLast ++ [START_CHAR_CODE, END_CHAR_CODE] =
        (p.dropLast ++ [START_CHAR_CODE]) ++ [END_CHAR_CODE] := by simp
    rw [hsplit]
    apply valid_concat
    · intro x hx
      rcases List.mem_append.mp hx with hx | hx
      · exact hmem x ((List.dropLast_sublist p).mem hx)
      · rcases List.mem_singleton.mp hx with rfl
        exact ⟨Nat.le_refl _, by simp only [START_CHAR_CODE, END_CHAR_CODE]; omega⟩
    · simp only [START_CHAR_CODE, END_CHAR_CODE]; omega
    · simp only [END_CHAR_CODE]; omega
    · simp only [START_CHAR_CODE, END_CHAR_CODE]; omega

theorem position_after_gt {p : List Nat} (_h : is_valid_position p = true) :
    compare_positions (position_after p) p = .gt := by
  rw [← cp_lt_iff_gt]
  cases hscan : scanAfter p.reverse with
  | some r =>
    obtain ⟨u, c, v, hp, hv, hc, hres⟩ := position_after_shape hscan
    rw [hres, hp, cp_append]
    exact cp_cons_lt (by omega) v []
  | none =>
    rw [position_after_growth hscan]
    exact cp_prefix_lt p (by simp)

theorem position_after_valid {p : List Nat} (h : is_valid_position p = true) :
    is_valid_position (position_after p) = true := by
  obtain ⟨hne, hlast, hmem⟩ := (valid_iff p).mp h
  cases hscan : scanAfter p.reverse with
  | some r =>
    obtain ⟨u, c, v, hp, hv, hc, hres⟩ := position_after_shape hscan
    rw [hres]
    have hc2 := hmem c (by rw [hp]; simp)
    apply valid_concat
    · intro x hx
      exact hmem x (by rw [hp]; simp [hx])
    · simp only [START_CHAR_CODE, END_CHAR_CODE] at *; omega
    · simp only [START_CHAR_CODE, END_CHAR_CODE] at *; omega
    · simp only [START_CHAR_CODE, END_CHAR_CODE] at *; omega
  | none =>
    rw [position_after_growth hscan]
    apply valid_concat
    · exact hmem
    · simp only [START_CHAR_CODE]; omega
    · simp only [START_CHAR_CODE, END_CHAR_CODE]; omega
    · simp only [START_CHAR_CODE]; omega

end FigmaStrategy
end LexoRankRust

namespace LexoRankRust
namespace FigmaStrategy

theorem wsub_eq {a b : Nat} (hba : b ≤ a) (ha : a < 2 ^ 8) :
    wsub a b = a - b := by
  unfold wsub
  omega

theorem avg_eq {a b : Nat} (h : a + b < 2 ^ 8) : avg a b = (a + b) / 2 := by
  unfold avg
  omega

theorem position_between_eq_post (a b : List Nat) :
    position_between a b =
      post (betweenLoop (max a.length b.length) a b false) := by
  rw [position_between, post]
  by_cases h : (betweenLoop (max a.length b.length) a b false).2 <;> simp [h]

theorem post_cons (c : Nat) (r : List Nat × Bool) :
    post (c :: r.1, r.2) = c :: post r := by
  simp [post]

theorem post_ne_nil_of_cons (c : Nat) (r : List Nat × Bool) :
    post (c :: r.1, r.2) ≠ [] := by
  simp [post]

theorem betweenLoop_succ_step (n : Nat) (as bs : List Nat) (flag : Bool) :
    betweenLoop (n + 1) as bs flag =
      if as.headD 32 = (if flag then 126 else bs.headD 126) then
        (as.headD 32 :: (betweenLoop n as.tail bs.tail flag).1,
          (betweenLoop n as.tail bs.tail flag).2)
      else if 1 < wsub (if flag then 126 else bs.headD 126) (as.headD 32) then
        ([avg (as.headD 32) (if flag then 126 else bs.headD 126)], false)
      else
        (as.headD 32 :: (betweenLoop n as.tail bs.tail true).1,
          (betweenLoop n as.tail bs.tail true).2) := rfl

theorem betweenSafe_succ_step (n : Nat) (as bs : List Nat) (flag : Bool) :
    betweenSafe (n + 1) as bs flag =
      if as.headD 32 ≤ (if flag then 126 else bs.headD 126) then
        if as.headD 32 = (if flag then 126 else bs.headD 126) then
          betweenSafe n as.tail bs.tail flag
        else if 1 < wsub (if flag then 126 else bs.headD 126) (as.headD 32) then
          true
        else betweenSafe n as.tail bs.tail true
      else false := rfl

theorem avg_32_126 : avg 32 126 = 79 := by decide

/-- Once `first_pos` is exhausted with the open-ended flag set, the loop
emits exactly the alphabet midpoint. -/
theorem betweenLoop_true_nil (n : Nat) (bs : List Nat) :
    post (betweenLoop n [] bs true) = [avg START_CHAR_CODE END_CHAR_CODE] := by
  cases n with
  | zero => simp [betweenLoop, post]
  | succ m =>
    rw [betweenLoop_succ_step]
    norm_num [wsub]
    simp [post]
    rfl

theorem betweenSafe_true_nil (n : Nat) (bs : List Nat) :
    betweenSafe n [] bs true = true := by
  cases n with
  | zero => rfl
  | succ m =>
    rw [betweenSafe_succ_step]
    norm_num [wsub]

end FigmaStrategy
end LexoRankRust

namespace LexoRankRust
namespace FigmaStrategy

/-- Behaviour of the loop once the open-ended flag is set: the output is
strictly greater than the remaining suffix of `first_pos`, is a valid
position, and the `u8` subtraction stays safe. -/
theorem betweenLoop_true_main (as : List Nat) :
    ∀ n bs, as.length ≤ n → (∀ c ∈ as, c ≤ 126) →
      compare_positions as (post (betweenLoop n as bs true)) = .lt ∧
      is_valid_position (post (betweenLoop n as bs true)) = true ∧
      betweenSafe n as bs true = true := by
  induction as with
  | nil =>
    intro n bs _ _
    refine ⟨?_, ?_, betweenSafe_true_nil n bs⟩
    · rw [betweenLoop_true_nil]
      exact cp_nil_lt (by simp)
    · rw [betweenLoop_true_nil]
      decide
  | cons c rest ih =>
    intro n bs hlen hmem
    obtain ⟨m, rfl⟩ : ∃ m, n = m + 1 := ⟨n - 1, by simp at hlen; omega⟩
    have hc : c ≤ 126 := hmem c (by simp)
    have hrest : ∀ x ∈ rest, x ≤ 126 := fun x hx => hmem x (by simp [hx])
    have hlen' : rest.length ≤ m := by simp at hlen; omega
    obtain ⟨ih1, ih2, ih3⟩ := ih m bs.tail hlen' hrest
    rw [betweenLoop_succ_step, betweenSafe_succ_step]
    simp only [List.headD_cons, List.tail_cons, if_true]
    by_cases hceq : c = 126
    · subst hceq
      rw [if_pos rfl, if_pos rfl, if_pos (by omega), post_cons]
      refine ⟨?_, valid_cons ih2 (by decide) (by decide), ih3⟩
      rw [cp_cons_self]
      exact ih1
    · by_cases hgap : c ≤ 124
      · have hw : wsub 126 c = 126 - c := wsub_eq (by omega) (by omega)
        rw [if_neg hceq, if_pos (by rw [hw]; omega), if_pos (by omega),
          if_neg hceq, if_pos (by rw [hw]; omega)]
        have havg : avg c 126 = (c + 126) / 2 := avg_eq (by omega)
        refine ⟨?_, ?_, rfl⟩
        · simp only [post, if_neg (by simp : ¬ (false = true))]
          rw [List.append_nil]
          exact cp_cons_lt (by rw [havg]; omega) rest []
        · simp only [post, if_neg (by simp : ¬ (false = true))]
          rw [List.append_nil]
          exact valid_singleton
            (by rw [havg]; show (32:Nat) ≤ (c + 126) / 2; omega)
            (by rw [havg]; show (c + 126) / 2 ≤ 126; omega)
            (by rw [havg]; show (c + 126) / 2 ≠ 32; omega)
      · have hc125 : c = 125 := by omega
        subst hc125
        have hw : wsub 126 125 = 1 := by decide
        rw [if_neg hceq, if_neg (by rw [hw]; omega), if_pos (by omega),
          if_neg hceq, if_neg (by rw [hw]; omega), post_cons]
        refine ⟨?_, valid_cons ih2 (by decide) (by decide), ih3⟩
        rw [cp_cons_self]
        exact ih1

end FigmaStrategy
end LexoRankRust

namespace LexoRankRust
namespace FigmaStrategy

theorem cp_lt_ne_nil {as bs : List Nat} (h : compare_positions as bs = .lt) :
    bs ≠ [] := by
  intro hbs
  subst hbs
  cases as <;> simp [compare_positions] at h

/-- Main invariant of the `position_between` loop in the flag-clear state:
on ordered, alphabet-bounded suffixes whose right side does not end in the
minimum byte, the finished output is strictly between the suffixes, valid,
and free of `u8` underflow. -/
theorem betweenLoop_false_main :
    ∀ n as bs, n = max as.length bs.length →
      compare_positions as bs = .lt →
      (∀ c ∈ as, START_CHAR_CODE ≤ c ∧ c ≤ END_CHAR_CODE) →
      (∀ c ∈ bs, START_CHAR_CODE ≤ c ∧ c ≤ END_CHAR_CODE) →
      bs.getLastD 0 ≠ START_CHAR_CODE →
      compare_positions as (post (betweenLoop n as bs false)) = .lt ∧
      compare_positions (post (betweenLoop n as bs false)) bs = .lt ∧
      is_valid_position (post (betweenLoop n as bs false)) = true ∧
      betweenSafe n as bs false = true := by
  intro n
  induction n with
  | zero =>
    intro as bs hn hlt _ _ _
    have ha : as.length = 0 := by omega
    have hb : bs.length = 0 := by omega
    rw [List.length_eq_zero] at ha hb
    subst ha; subst hb
    simp [compare_positions] at hlt
  | succ m ih =>
    intro as bs hn hlt hma hmb hlast
    cases bs with
    | nil => exact absurd rfl (cp_lt_ne_nil hlt)
    | cons y ys =>
      have hy : (32:Nat) ≤ y ∧ y ≤ 126 := hmb y (by simp)
      rw [betweenLoop_succ_step, betweenSafe_succ_step]
      cases as with
      | nil =>
        simp only [List.headD_nil, List.headD_cons, List.tail_nil,
          List.tail_cons, Bool.false_eq_true, if_false]
        simp only [List.length_nil, List.length_cons] at hn
        by_cases hy32 : y = 32
        · subst hy32
          rw [List.getLastD_cons] at hlast
          have hys : ys ≠ [] := by rintro rfl; exact hlast rfl
          have hlast' : ys.getLastD 0 ≠ START_CHAR_CODE := by
            rw [getLastD_of_ne_nil hys 0 32]; exact hlast
          obtain ⟨ih1, ih2, ih3, ih4⟩ := ih [] ys (by simp; omega)
            (cp_nil_lt hys) (by simp)
            (fun c hc => hmb c (by simp [hc])) hlast'
          rw [if_pos rfl, if_pos (by omega), if_pos rfl]
          refine ⟨?_, ?_, ?_, ih4⟩
          · rw [post_cons]
            exact cp_nil_lt (by simp)
          · rw [post_cons, cp_cons_self]
            exact ih2
          · rw [post_cons]
            exact valid_cons ih3 (by decide) (by decide)
        · by_cases hy33 : y = 33
          · subst hy33
            have hw : wsub 33 32 = 1 := by decide
            rw [if_neg (by omega), if_neg (by rw [hw]; omega),
              if_pos (by omega), if_neg (by omega), if_neg (by rw [hw]; omega)]
            refine ⟨?_, ?_, ?_, betweenSafe_true_nil m ys⟩
            · rw [post_cons]
              exact cp_nil_lt (by simp)
            · rw [post_cons]
              exact cp_cons_lt (by omega) _ ys
            · rw [post_cons, betweenLoop_true_nil]
              exact valid_cons (by decide) (by decide) (by decide)
          · have hy34 : 34 ≤ y := by omega
            have hw : wsub y 32 = y - 32 := wsub_eq (by omega) (by omega)
            have havg : avg 32 y = (32 + y) / 2 := avg_eq (by omega)
            rw [if_neg (by omega), if_pos (by rw [hw]; omega),
              if_pos (by omega), if_neg (by omega), if_pos (by rw [hw]; omega)]
            refine ⟨?_, ?_, ?_, rfl⟩
            · simp only [post, if_neg (by simp : ¬ (false = true))]
              rw [List.append_nil]
              exact cp_nil_lt (by simp)
            · simp only [post, if_neg (by simp : ¬ (false = true))]
              rw [List.append_nil]
              exact cp_cons_lt (by rw [havg]; omega) [] ys
            · simp only [post, if_neg (by simp : ¬ (false = true))]
              rw [List.append_nil]
              exact valid_singleton
                (by rw [havg]; show (32:Nat) ≤ (32 + y) / 2; omega)
                (by rw [havg]; show (32 + y) / 2 ≤ 126; omega)
                (by rw [havg]; show (32 + y) / 2 ≠ 32; omega)
      | cons x xs =>
        have hx : (32:Nat) ≤ x ∧ x ≤ 126 := hma x (by simp)
        simp only [List.headD_cons, List.tail_cons, Bool.false_eq_true,
          if_false]
        simp only [List.length_cons] at hn
        rcases cp_cons_iff.mp hlt with hxy | ⟨rfl, hxs⟩
        · by_cases hgap : x + 2 ≤ y
          · have hw : wsub y x = y - x := wsub_eq (by omega) (by omega)
            have havg : avg x y = (x + y) / 2 := avg_eq (by omega)
            rw [if_neg (by omega), if_pos (by rw [hw]; omega),
              if_pos (by omega), if_neg (by omega), if_pos (by rw [hw]; omega)]
            refine ⟨?_, ?_, ?_, rfl⟩
            · simp only [post, if_neg (by simp : ¬ (false = true))]
              rw [List.append_nil]
              exact cp_cons_lt (by rw [havg]; omega) xs []
            · simp only [post, if_neg (by simp : ¬ (false = true))]
              rw [List.append_nil]
              exact cp_cons_lt (by rw [havg]; omega) [] ys
            · simp only [post, if_neg (by simp : ¬ (false = true))]
              rw [List.append_nil]
              exact valid_singleton
                (by rw [havg]; show (32:Nat) ≤ (x + y) / 2; omega)
                (by rw [havg]; show (x + y) / 2 ≤ 126; omega)
                (by rw [havg]; show (x + y) / 2 ≠ 32; omega)
          · have hadj : y = x + 1 := by omega
            subst hadj
            have hw : wsub (x + 1) x = x + 1 - x := wsub_eq (by omega) (by omega)
            obtain ⟨t1, t2, t3⟩ := betweenLoop_true_main xs m ys
              (by omega) (fun c hc => (hma c (by simp [hc])).2)
            rw [if_neg (by omega), if_neg (by rw [hw]; omega),
              if_pos (by omega), if_neg (by omega), if_neg (by rw [hw]; omega)]
            refine ⟨?_, ?_, ?_, t3⟩
            · rw [post_cons, cp_cons_self]
              exact t1
            · rw [post_cons]
              exact cp_cons_lt (by omega) _ ys
            · rw [post_cons]
              exact valid_cons t2 hx.1 hx.2
        · have hys : ys ≠ [] := cp_lt_ne_nil hxs
          rw [List.getLastD_cons] at hlast
          have hlast' : ys.getLastD 0 ≠ START_CHAR_CODE := by
            rw [getLastD_of_ne_nil hys 0 x]; exact hlast
          obtain ⟨ih1, ih2, ih3, ih4⟩ := ih xs ys (by omega) hxs
            (fun c hc => hma c (by simp [hc]))
            (fun c hc => hmb c (by simp [hc])) hlast'
          rw [if_pos rfl, if_pos (by omega), if_pos rfl]
          refine ⟨?_, ?_, ?_, ih4⟩
          · rw [post_cons, cp_cons_self]
            exact ih1
          · rw [post_cons, cp_cons_self]
            exact ih2
          · rw [post_cons]
            exact valid_cons ih3 hx.1 hx.2

end FigmaStrategy
end LexoRankRust

namespace LexoRankRust
namespace FigmaStrategy

theorem scanBefore_none_of {l : List Nat}
    (h : ∀ x ∈ l, ¬ START_CHAR_CODE + 1 < x) : scanBefore l = none := by
  have := scanBefore_append h (t := [])
  simpa using this

theorem scanAfter_none_of {l : List Nat}
    (h : ∀ x ∈ l, ¬ x < END_CHAR_CODE) : scanAfter l = none := by
  induction l with
  | nil => rfl
  | cons c cs ih =>
    rw [scanAfter_cons, if_neg (h c (by simp))]
    exact ih fun x hx => h x (by simp [hx])

/-- Combined correctness of `position_between` on valid ordered inputs. -/
theorem position_between_core {a b : List Nat}
    (ha : is_valid_position a = true) (hb : is_valid_position b = true)
    (hab : compare_positions a b = .lt) :
    compare_positions a (position_between a b) = .lt ∧
    compare_positions (position_between a b) b = .lt ∧
    is_valid_position (position_between a b) = true ∧
    betweenSafe (max a.length b.length) a b false = true := by
  obtain ⟨-, hlast, hmemb⟩ := (valid_iff b).mp hb
  obtain ⟨-, -, hmema⟩ := (valid_iff a).mp ha
  rw [position_between_eq_post]
  exact betweenLoop_false_main _ a b rfl hab hmema hmemb hlast

end FigmaStrategy
end LexoRankRust

namespace LexoRankRust
namespace FigmaStrategy

theorem position_before_split {p u v : List Nat} {c : Nat}
    (hp : p = u ++ c :: v) (hc : 33 < c) (hv : ∀ x ∈ v, x ≤ 33) :
    position_before p = u ++ [c - 1] := by
  have hrev : p.reverse = v.reverse ++ c :: u.reverse := by
    rw [hp]
    simp [List.reverse_append, List.reverse_cons, List.append_assoc]
  have hscan : scanBefore p.reverse = some ((c - 1) :: u.reverse) := by
    rw [hrev, scanBefore_append (fun x hx => by
      have := hv x (List.mem_reverse.mp hx)
      simp only [START_CHAR_CODE]; omega), scanBefore_cons,
      if_pos (show START_CHAR_CODE + 1 < c from hc)]
  rw [position_before, hscan]
  simp

theorem position_before_all_small {p : List Nat} (h : ∀ x ∈ p, x ≤ 33) :
    position_before p = p.dropLast ++ [START_CHAR_CODE, END_CHAR_CODE] := by
  apply position_before_growth
  apply scanBefore_none_of
  intro x hx
  have := h x (List.mem_reverse.mp hx)
  simp only [START_CHAR_CODE]; omega

theorem scanAfter_append {s : List Nat}
    (h : ∀ x ∈ s, ¬ x < END_CHAR_CODE) (t : List Nat) :
    scanAfter (s ++ t) = scanAfter t := by
  induction s with
  | nil => rfl
  | cons c cs ih =>
    rw [List.cons_append, scanAfter_cons, if_neg (h c (by simp))]
    exact ih fun x hx => h x (by simp [hx])

theorem position_after_split {p u v : List Nat} {c : Nat}
    (hp : p = u ++ c :: v) (hc : c < 126) (hv : ∀ x ∈ v, 126 ≤ x) :
    position_after p = u ++ [c + 1] := by
  have hrev : p.reverse = v.reverse ++ c :: u.reverse := by
    rw [hp]
    simp [List.reverse_append, List.reverse_cons, List.append_assoc]
  have hscan : scanAfter p.reverse = some ((c + 1) :: u.reverse) := by
    rw [hrev, scanAfter_append (fun x hx => by
      have := hv x (List.mem_reverse.mp hx)
      simp only [END_CHAR_CODE]; omega), scanAfter_cons,
      if_pos (show c < END_CHAR_CODE from hc)]
  rw [position_after, hscan]
  simp

theorem position_after_all_max {p : List Nat} (h : ∀ x ∈ p, x = 126) :
    position_after p = p ++ [START_CHAR_CODE + 1] := by
  apply position_after_growth
  apply scanAfter_none_of
  intro x hx
  have := h x (List.mem_reverse.mp hx)
  simp only [END_CHAR_CODE]; omega

end FigmaStrategy
end LexoRankRust

namespace LexoRankRust

open FigmaStrategy

/-- Claim C1: for every pair of valid positions `a` and `b` with
`compare(a, b) = Less`, the string returned by `between(a, b)` compares
strictly greater than `a` and strictly less than `b` under `compare`. -/
theorem between_strictly_between (a b : List Nat)
    (ha : is_valid_position a = true) (hb : is_valid_position b = true)
    (hab : compare_positions a b = .lt) :
    compare_positions a (position_between a b) = .lt ∧
    compare_positions (position_between a b) b = .lt :=
  ⟨(position_between_core ha hb hab).1, (position_between_core ha hb hab).2.1⟩

/-- Witness for C1 at `a = "A"`, `b = "C"`. -/
theorem between_strictly_between_witness :
    compare_positions [65] (position_between [65] [67]) = .lt ∧
    compare_positions (position_between [65] [67]) [67] = .lt :=
  between_strictly_between [65] [67] (by decide) (by decide) (by decide)

/-- Claim C2: for every valid position `p`, `before(p)` compares strictly
less than `p` and `after(p)` compares strictly greater than `p`. -/
theorem before_lt_and_after_gt (p : List Nat)
    (h : is_valid_position p = true) :
    compare_positions (position_before p) p = .lt ∧
    compare_positions (position_after p) p = .gt :=
  ⟨position_before_lt h, position_after_gt h⟩

/-- Witness for C2 at `p = "C"`. -/
theorem before_lt_and_after_gt_witness :
    compare_positions (position_before [67]) [67] = .lt ∧
    compare_positions (position_after [67]) [67] = .gt :=
  before_lt_and_after_gt [67] (by decide)

/-- Claim C3: `is_valid(p)` returns false exactly when `p` is empty, or its
last byte is 32, or some byte lies outside `[32, 126]`. -/
theorem is_valid_position_false_iff (p : List Nat) :
    is_valid_position p = false ↔
      p = [] ∨ p.getLastD 0 = 32 ∨ ∃ c ∈ p, c < 32 ∨ 126 < c := by
  constructor
  · intro hfalse
    by_contra hcon
    push_neg at hcon
    obtain ⟨h1, h2, h3⟩ := hcon
    have hvalid : is_valid_position p = true :=
      (valid_iff p).mpr ⟨h1, h2, fun c hc => by
        have h4 := h3 c hc
        exact ⟨by show (32:Nat) ≤ c; omega, by show c ≤ 126; omega⟩⟩
    rw [hvalid] at hfalse
    cases hfalse
  · intro hcases
    rw [Bool.eq_false_iff]
    intro htrue
    obtain ⟨h1, h2, h3⟩ := (valid_iff p).mp htrue
    rcases hcases with hc | hc | ⟨c, hcmem, hc⟩
    · exact h1 hc
    · exact h2 hc
    · have h4 : (32:Nat) ≤ c ∧ c ≤ 126 := h3 c hcmem
      omega

/-- Claim C4: `compare` is plain byte-wise lexicographic comparison
(equivalently, the standard `List.Lex` sequence order), and the induced
relation is a strict total order: it reports equality exactly on equal
strings, is antisymmetric, transitive, and matches the documented examples. -/
theorem compare_positions_total_order :
    (∀ a b : List Nat,
      compare_positions a b = .lt ↔ List.Lex (· < ·) a b) ∧
    (∀ a b : List Nat, compare_positions a b = .eq ↔ a = b) ∧
    (∀ a b : List Nat,
      compare_positions a b = .lt ↔ compare_positions b a = .gt) ∧
    (∀ a b : List Nat, compare_positions a b = .lt →
      ¬ compare_positions b a = .lt) ∧
    (∀ a b c : List Nat, compare_positions a b = .lt →
      compare_positions b c = .lt → compare_positions a c = .lt) ∧
    compare_positions [65, 65] [65, 66] = .lt ∧
    compare_positions [65, 65] [65, 65] = .eq ∧
    compare_positions [65, 65] [65, 48] = .gt := by
  refine ⟨cp_lex_iff, cp_eq_iff, cp_lt_iff_gt, ?_, cp_trans,
    by decide, by decide, by decide⟩
  intro a b h hc
  rw [(cp_lt_iff_gt a b).mp h] at hc
  cases hc

/-- Witness for C4: transitivity applied at concrete one-byte strings. -/
theorem compare_positions_total_order_witness :
    compare_positions [65] [67] = .lt :=
  compare_positions_total_order.2.2.2.2.1 [65] [66] [67] (by decide) (by decide)

/-- Claim C5: `before` follows the documented algorithm: if the rightmost
byte strictly greater than 33 sits after prefix `u` (with only bytes at most
33 to its right), the result is `u` plus that byte decremented; if every
byte is at most 33, the result drops the last byte and appends 32 then 126;
and the documented examples hold. -/
theorem position_before_algorithm (p : List Nat)
    (_hv : is_valid_position p = true) :
    (∀ (u : List Nat) (c : Nat) (v : List Nat), p = u ++ c :: v → 33 < c →
      (∀ x ∈ v, x ≤ 33) → position_before p = u ++ [c - 1]) ∧
    ((∀ x ∈ p, x ≤ 33) → position_before p = p.dropLast ++ [32, 126]) ∧
    position_before [67] = [66] ∧ position_before [65, 65] = [65, 64] ∧
    position_before [33] = [32, 126] :=
  ⟨fun _ _ _ hp hc hvv => position_before_split hp hc hvv,
   fun hall => position_before_all_small hall,
   by decide, by decide, by decide⟩

/-- Witness for C5 at `p = "AA"`: the rightmost byte above 33 is the second
`A`, so the result decrements it in place. -/
theorem position_before_algorithm_witness :
    position_before [65, 65] = [65] ++ [64] :=
  (position_before_algorithm [65, 65] (by decide)).1 [65] 65 []
    (by decide) (by decide) (by simp)

/-- Claim C6: `after` follows the documented algorithm: if the rightmost
byte strictly below 126 sits after prefix `u` (with only 126-bytes to its
right), the result is `u` plus that byte incremented; if every byte is 126,
the result appends byte 33; and the documented examples hold. -/
theorem position_after_algorithm (p : List Nat)
    (_hv : is_valid_position p = true) :
    (∀ (u : List Nat) (c : Nat) (v : List Nat), p = u ++ c :: v → c < 126 →
      (∀ x ∈ v, 126 ≤ x) → position_after p = u ++ [c + 1]) ∧
    ((∀ x ∈ p, x = 126) → position_after p = p ++ [33]) ∧
    position_after [67] = [68] ∧ position_after [65, 65] = [65, 66] ∧
    position_after [126] = [126, 33] :=
  ⟨fun _ _ _ hp hc hvv => position_after_split hp hc hvv,
   fun hall => position_after_all_max hall,
   by decide, by decide, by decide⟩

/-- Witness for C6 at `p = "AA"`. -/
theorem position_after_algorithm_witness :
    position_after [65, 65] = [65] ++ [66] :=
  (position_after_algorithm [65, 65] (by decide)).1 [65] 65 []
    (by decide) (by decide) (by simp)

/-- Claim C7: `between` appends exactly one extra byte, the alphabet
midpoint `avg 32 126 = 79`, precisely when the loop finishes with the
open-ended flag still set; and the documented examples hold. -/
theorem position_between_midpoint_append (a b : List Nat) :
    position_between a b =
      (betweenLoop (max a.length b.length) a b false).1 ++
        (if (betweenLoop (max a.length b.length) a b false).2 then
          [avg 32 126] else []) ∧
    avg 32 126 = 79 ∧
    position_between [65] [67] = [66] ∧
    position_between [65, 65] [65, 66] = [65, 65, 79] :=
  ⟨position_between_eq_post a b, by decide, by decide, by decide⟩

/-- Claim C8: the facade forwards each of the five operations unchanged to
the strategy implementation selected for the kind (the only kind being
FIGMA), and the default kind is FIGMA. -/
theorem lexorank_facade_forwards :
    (∀ (k : LexoRankKind) (a b : List Nat),
      (LexoRank.new k).compare_positions a b =
        FigmaStrategy.compare_positions a b) ∧
    (∀ (k : LexoRankKind) (p : List Nat),
      (LexoRank.new k).is_valid_position p =
        FigmaStrategy.is_valid_position p) ∧
    (∀ (k : LexoRankKind) (p : List Nat),
      (LexoRank.new k).position_before p =
        FigmaStrategy.position_before p) ∧
    (∀ (k : LexoRankKind) (p : List Nat),
      (LexoRank.new k).position_after p =
        FigmaStrategy.position_after p) ∧
    (∀ (k : LexoRankKind) (a b : List Nat),
      (LexoRank.new k).position_between a b =
        FigmaStrategy.position_between a b) ∧
    LexoRankKind.default = LexoRankKind.FIGMA ∧
    (LexoRank.new LexoRankKind.default).kind = LexoRankKind.FIGMA := by
  refine ⟨?_, ?_, ?_, ?_, ?_, rfl, rfl⟩ <;> rintro ⟨⟩ <;> intros <;> rfl

/-- Claim C9: the generators preserve validity: `before(p)` and `after(p)`
are valid for valid `p`, and `between(a, b)` is valid for valid `a`, `b`
with `compare(a, b) = Less`. -/
theorem generators_preserve_validity :
    (∀ p, is_valid_position p = true →
      is_valid_position (position_before p) = true ∧
      is_valid_position (position_after p) = true) ∧
    (∀ a b, is_valid_position a = true → is_valid_position b = true →
      compare_positions a b = .lt →
      is_valid_position (position_between a b) = true) :=
  ⟨fun _ h => ⟨position_before_valid h, position_after_valid h⟩,
   fun _ _ ha hb hab => (position_between_core ha hb hab).2.2.1⟩

/-- Witness for C9 at `p = "C"` and `(a, b) = ("A", "C")`. -/
theorem generators_preserve_validity_witness :
    (is_valid_position (position_before [67]) = true ∧
      is_valid_position (position_after [67]) = true) ∧
    is_valid_position (position_between [65] [67]) = true :=
  ⟨generators_preserve_validity.1 [67] (by decide),
   generators_preserve_validity.2 [65] [67] (by decide) (by decide) (by decide)⟩

/-- Claim C10: under the documented preconditions no operation hits `u8`
wrap-around or a panicking access: `avg`'s addition stays below `2 ^ 8`
(so its explicit wrap is inert), the loop subtraction `upper - lower` in
`between` never underflows on valid ordered inputs, every byte of
`before(p)`/`after(p)` stays a `u8`, and `is_valid`'s last-byte access is
short-circuited on the empty string. -/
theorem no_arithmetic_panics :
    (∀ a b : Nat, a ≤ 126 → b ≤ 126 →
      a + b < 2 ^ 8 ∧ avg a b = (a + b) / 2) ∧
    (∀ a b, is_valid_position a = true → is_valid_position b = true →
      compare_positions a b = .lt →
      betweenSafe (max a.length b.length) a b false = true) ∧
    (∀ p, is_valid_position p = true →
      (∀ c ∈ position_before p, c < 2 ^ 8) ∧
      (∀ c ∈ position_after p, c < 2 ^ 8)) ∧
    is_valid_position [] = false := by
  refine ⟨?_, ?_, ?_, rfl⟩
  · intro a b ha hb
    exact ⟨by omega, avg_eq (by omega)⟩
  · intro a b ha hb hab
    exact (position_between_core ha hb hab).2.2.2
  · intro p h
    constructor
    · intro c hc
      have h2 := ((valid_iff _).mp (position_before_valid h)).2.2 c hc
      have h3 : (32:Nat) ≤ c ∧ c ≤ 126 := h2
      omega
    · intro c hc
      have h2 := ((valid_iff _).mp (position_after_valid h)).2.2 c hc
      have h3 : (32:Nat) ≤ c ∧ c ≤ 126 := h2
      omega

/-- Witness for C10 at `a = "A"`, `b = "C"` and bytes 65, 67. -/
theorem no_arithmetic_panics_witness :
    (65 + 67 < 2 ^ 8 ∧ avg 65 67 = (65 + 67) / 2) ∧
    betweenSafe (max [65].length [67].length) [65] [67] false = true :=
  ⟨no_arithmetic_panics.1 65 67 (by decide) (by decide),
   no_arithmetic_panics.2.1 [65] [67] (by decide) (by decide) (by decide)⟩

end LexoRankRust
